import Mathlib

/-!
# Shallow embedding of the indexify extraction-coordination store

This file embeds the coordination logic of `src/persistence.rs` (the
`Repository` facade over the relational store) as executable Lean
definitions and proves the specification claims about it.

Modelling conventions:
* The relational tables (`content`, `extraction_event`, `data_repository`,
  `work`) become lists of row structures inside a single `DbState`.
* `serde_json::Value` metadata values become the small `Jval` type; the
  Postgres `->>` text extraction (which maps a JSON null, or an absent
  key, to SQL NULL) becomes an `Option String`.
* Random `nanoid!()` event ids are passed in as explicit arguments
  (a random id stream), since they are the only nondeterminism.
* `DefaultHasher`-based deterministic id derivation is modelled by a
  deterministic injective encoding of the same input tuple (`deriveId`);
  the claims only depend on the ids being deterministic functions of the
  semantic inputs.
* Fallible operations return `Outcome α`: `ok` for `Ok(..)`, `err` for a
  returned `Err(..)`, and `crashed` for a Rust panic (`unwrap` on `None`).
* Transactions are all-or-nothing: a failing transaction leaves the state
  unchanged.
-/

/-- A JSON value as stored in content metadata / filter values
(`serde_json::Value`, restricted to the shapes the coordination logic
inspects). -/
inductive Jval : Type where
  | jstr (s : String)
  | jnum (n : Int)
  | jbool (b : Bool)
  | jnull
  deriving DecidableEq, Repr

/-- Model of `serde_json::Value::as_str`: `Some` exactly for JSON strings. -/
def Jval.asStr : Jval → Option String
  | .jstr s => some s
  | _ => none

/-- Postgres `jsonb ->> key` on a metadata object: text of the value at
`key`; SQL NULL when the key is absent or its value is JSON null. -/
def metaText (metadata : List (String × Jval)) (field : String) : Option String :=
  match metadata.find? (fun kv => kv.1 = field) with
  | none => none
  | some (_, .jstr s) => some s
  | some (_, .jnum n) => some (toString n)
  | some (_, .jbool b) => some (if b then "true" else "false")
  | some (_, .jnull) => none

/-- Deterministic id derivation. The source feeds the semantic strings, in
order, into std's `DefaultHasher` (SipHash-1-3) and formats the 64-bit
result; we model it as a deterministic (injective) encoding of the same
ordered tuple, which is all the claims depend on. -/
def deriveId (parts : List String) : String :=
  String.intercalate "\u0001" parts

/-- Model of `ExtractorFilter` (persistence.rs): equality / inequality predicates
over content metadata. -/
inductive ExtractorFilter : Type where
  | eq (field : String) (value : Jval)
  | neq (field : String) (value : Jval)
  deriving DecidableEq, Repr

/-- The value carried by a filter. -/
def ExtractorFilter.value : ExtractorFilter → Jval
  | .eq _ v => v
  | .neq _ v => v

/-- Model of `ExtractorBinding` (persistence.rs). `input_params` is irrelevant to
every claim and omitted. -/
structure ExtractorBinding : Type where
  id : String
  extractor_name : String
  index_name : String
  filters : List ExtractorFilter
  deriving DecidableEq, Repr

/-- Model of `ExtractorBinding::new`: id is the deterministic hash of
(repository, extractor_name, index_name). -/
def ExtractorBinding.new (repository extractor_name index_name : String)
    (filters : List ExtractorFilter) : ExtractorBinding :=
  { id := deriveId [repository, extractor_name, index_name]
    extractor_name := extractor_name
    index_name := index_name
    filters := filters }

/-- Model of `ExtractionEventPayload` (persistence.rs). -/
inductive ExtractionEventPayload : Type where
  | extractorBindingAdded (repository : String) (id : String)
  | createContent (content_id : String)
  deriving DecidableEq, Repr

/-- Model of `ExtractionEvent` (persistence.rs): the value serialized into the
outbox row's `payload` column. -/
structure ExtractionEvent : Type where
  id : String
  repository_id : String
  payload : ExtractionEventPayload
  deriving DecidableEq, Repr

/-- A row of the `extraction_event` table (entity/extraction_event.rs):
id, JSON payload (stored here in its decoded form, since serialization
round-trips), and the nullable `processed_at` marker. -/
structure EventRow : Type where
  id : String
  payload : ExtractionEvent
  processed_at : Option Int
  deriving DecidableEq, Repr

/-- Model of `Text` (persistence.rs): one unit of content to ingest. -/
structure Text : Type where
  id : String
  text : String
  metadata : List (String × Jval)
  deriving DecidableEq, Repr

/-- Model of `Text::from_text`: id is the deterministic hash of (repository, text). -/
def Text.from_text (repository text : String) (metadata : List (String × Jval)) : Text :=
  { id := deriveId [repository, text], text := text, metadata := metadata }

/-- A row of the `content` table. `extractor_bindings_state` holds the
`{"state": {...}}` completion map; we store the inner binding-id → marker
map directly. -/
structure ContentRow : Type where
  id : String
  repository_id : String
  text : String
  metadata : List (String × Jval)
  content_type : String
  bindings_state : List (String × Nat)
  deriving DecidableEq, Repr

/-- The content row built by `add_content` for one `Text`: fresh rows carry
the default empty completion map (`ExtractorBindingsState::default()`). -/
def mkContentRow (repository_name : String) (t : Text) : ContentRow :=
  { id := t.id
    repository_id := repository_name
    text := t.text
    metadata := t.metadata
    content_type := "text"
    bindings_state := [] }

/-- Model of `COALESCE(cast(extractor_bindings_state->'state'->>binding_id as int), 0)`:
the completion marker of a content row for one binding, defaulting to 0. -/
def markerOf (c : ContentRow) (binding_id : String) : Nat :=
  match c.bindings_state.find? (fun kv => kv.1 = binding_id) with
  | some kv => kv.2
  | none => 0

/-- Set a key of an association list, replacing an existing entry. -/
def assocSet (m : List (String × Nat)) (k : String) (v : Nat) : List (String × Nat) :=
  match m with
  | [] => [(k, v)]
  | kv :: rest => if kv.1 = k then (k, v) :: rest else kv :: assocSet rest k v

/-- Model of `DataRepository` (persistence.rs). Data connectors are opaque to every
claim; we model each connector by its serialized form. -/
structure DataRepository : Type where
  name : String
  data_connectors : List String
  extractor_bindings : List ExtractorBinding
  metadata : List (String × Jval)
  deriving DecidableEq, Repr

/-- A row of the `data_repository` table: the bindings column stores the
id-keyed map `HashMap<String, ExtractorBinding>` built by
`upsert_repository`. -/
structure RepoRow : Type where
  name : String
  extractor_bindings : List (String × ExtractorBinding)
  metadata : List (String × Jval)
  data_connectors : List String
  deriving DecidableEq, Repr

/-- Model of `WorkState` (persistence.rs). -/
inductive WorkState : Type where
  | unknown
  | pending
  | inProgress
  | completed
  | failed
  deriving DecidableEq, Repr

/-- Model of `Work` (persistence.rs). `extractor_params` is carried opaquely. -/
structure Work : Type where
  id : String
  content_id : String
  repository_id : String
  index_name : String
  extractor : String
  extractor_params : Jval
  work_state : WorkState
  worker_id : Option String
  deriving DecidableEq, Repr

/-- Model of `Work::new`: deterministic id from (content_id, repository, index_name,
extractor); state starts `Pending`. -/
def Work.new (content_id repository index_name extractor : String)
    (extractor_params : Jval) (worker_id : Option String) : Work :=
  { id := deriveId [content_id, repository, index_name, extractor]
    content_id := content_id
    repository_id := repository
    index_name := index_name
    extractor := extractor
    extractor_params := extractor_params
    work_state := .pending
    worker_id := worker_id }

/-- A row of the `work` table. -/
structure WorkRow : Type where
  id : String
  state : WorkState
  worker_id : Option String
  content_id : String
  index_name : String
  extractor : String
  extractor_params : Jval
  repository_id : String
  deriving DecidableEq, Repr

/-- The row written by `insert_work`. -/
def mkWorkRow (w : Work) : WorkRow :=
  { id := w.id
    state := w.work_state
    worker_id := w.worker_id
    content_id := w.content_id
    index_name := w.index_name
    extractor := w.extractor
    extractor_params := w.extractor_params
    repository_id := w.repository_id }

/-- The relational-store errors the claims distinguish (`sea_orm::DbErr`). -/
inductive DbErr : Type where
  | recordNotInserted
  | uniqueViolation (constraint : String)
  | exec (msg : String)
  deriving DecidableEq, Repr

/-- A rendering of a `DbErr`, standing for `e.to_string()`. -/
def dbErrString : DbErr → String
  | .recordNotInserted => "None of the records are being inserted"
  | .uniqueViolation c => "duplicate key value violates unique constraint " ++ c
  | .exec m => m

/-- Model of `RepositoryError` (persistence.rs), restricted to the kinds the claims
exercise. -/
inductive RepositoryError : Type where
  | databaseError (e : DbErr)
  | logicError (msg : String)
  deriving DecidableEq, Repr

/-- Outcome of a fallible repository operation: `ok` = `Ok(..)`,
`err` = a returned `Err(..)`, `crashed` = a Rust panic (`unwrap` on
`None`). -/
inductive Outcome (α : Type) : Type where
  | ok (a : α)
  | err (e : RepositoryError)
  | crashed
  deriving DecidableEq, Repr

/-- The store state: the four tables the claims touch. -/
structure DbState : Type where
  content : List ContentRow
  events : List EventRow
  repos : List RepoRow
  work : List WorkRow
  deriving DecidableEq, Repr

/-- The empty store. -/
def DbState.empty : DbState :=
  { content := [], events := [], repos := [], work := [] }

/-- Model of `INSERT ... ON CONFLICT (id) DO NOTHING` over the content table: rows
are attempted left to right, a row whose id already exists (in the table or
earlier in the same statement) is skipped; returns the new table and the
number of rows actually inserted. -/
def insertContentBatch (tbl : List ContentRow) : List ContentRow → List ContentRow × Nat
  | [] => (tbl, 0)
  | r :: rs =>
    if tbl.any (fun c => c.id = r.id) then insertContentBatch tbl rs
    else
      let p := insertContentBatch (tbl ++ [r]) rs
      (p.1, p.2 + 1)

/-- Model of `INSERT` (no conflict clause) over the `extraction_event` table: any id
collision — with an existing row or within the batch — is a unique-key
violation failing the whole statement. -/
def insertEventsNoConflict (tbl : List EventRow) : List EventRow → Except DbErr (List EventRow)
  | [] => .ok tbl
  | e :: es =>
    if tbl.any (fun r => r.id = e.id) then .error (.uniqueViolation "extraction_event_pkey")
    else insertEventsNoConflict (tbl ++ [e]) es

/-- The `ContentCreated` outbox rows built by `add_content`: one per text,
with a supplied (nanoid) event id. -/
def mkCreateContentEvents (repository_name : String) (texts : List Text)
    (eventIds : List String) : List EventRow :=
  (texts.zip eventIds).map fun p =>
    { id := p.2
      payload := { id := p.2
                   repository_id := repository_name
                   payload := .createContent p.1.id }
      processed_at := none }

/-- Model of `Repository::add_content` (persistence.rs 576-634): in one transaction,
insert the content rows with `ON CONFLICT (id) DO NOTHING`; if nothing was
inserted (`DbErr::RecordNotInserted`) return `Ok(())` without appending
events; otherwise append one `ContentCreated` event row for every text in
the batch. A failure of the event insert fails the transaction (rolled
back, surfaced as `LogicError` by the `map_err`). -/
def add_content (st : DbState) (repository_name : String) (texts : List Text)
    (eventIds : List String) : Outcome DbState :=
  let rows := texts.map (mkContentRow repository_name)
  let evs := mkCreateContentEvents repository_name texts eventIds
  let p := insertContentBatch st.content rows
  if p.2 = 0 then .ok st
  else
    match insertEventsNoConflict st.events evs with
    | .error e => .err (.logicError (dbErrString e))
    | .ok etbl => .ok { st with content := p.1, events := etbl }

/-- One filter clause as compiled into the raw SQL query: whether it is an
equality, the metadata field, and the (string) comparison value. -/
structure CompiledFilter : Type where
  isEq : Bool
  field : String
  value : String
  deriving DecidableEq, Repr

/-- The filter-compilation loop of `content_with_unapplied_extractor`
(persistence.rs 664-679): each filter's value goes through
`value.as_str().unwrap()` — a non-string value makes the loop panic, which
we model as `none`. -/
def compileFilters : List ExtractorFilter → Option (List CompiledFilter)
  | [] => some []
  | .eq field value :: fs =>
    match value.asStr with
    | none => none
    | some v =>
      match compileFilters fs with
      | none => none
      | some cs => some ({ isEq := true, field := field, value := v } :: cs)
  | .neq field value :: fs =>
    match value.asStr with
    | none => none
    | some v =>
      match compileFilters fs with
      | none => none
      | some cs => some ({ isEq := false, field := field, value := v } :: cs)

/-- Satisfaction of one compiled clause by a content row, with Postgres
semantics for `metadata->>field = value` / `!= value`: when the field is
absent (SQL NULL) neither comparison is satisfied. -/
def satClause (c : ContentRow) (f : CompiledFilter) : Bool :=
  match metaText c.metadata f.field with
  | none => false
  | some m => if f.isEq then m = f.value else m ≠ f.value

/-- The WHERE clause of `content_with_unapplied_extractor`'s raw query:
`repository_id = $1 and COALESCE(... ->> binding_id ..., 0) < 1`, plus the
optional `id = content_id` clause, plus every compiled filter clause
conjunctively. -/
def unappliedPred (repo_id : String) (binding_id : String)
    (content_id : Option String) (cs : List CompiledFilter) (c : ContentRow) : Bool :=
  c.repository_id = repo_id && markerOf c binding_id < 1 &&
    (match content_id with
     | none => true
     | some cid => c.id = cid) &&
    cs.all (satClause c)

/-- Model of `Repository::content_with_unapplied_extractor` (persistence.rs
650-689): compile the binding's filters into the query (panicking on a
non-string filter value), then return every content row of the repository
whose completion marker for the binding is absent or zero and that
satisfies all clauses. -/
def content_with_unapplied_extractor (st : DbState) (repo_id : String)
    (extractor_binding : ExtractorBinding) (content_id : Option String) :
    Outcome (List ContentRow) :=
  match compileFilters extractor_binding.filters with
  | none => .crashed
  | some cs =>
    .ok (st.content.filter (unappliedPred repo_id extractor_binding.id content_id cs))

/-- Model of `Repository::mark_content_as_processed` (persistence.rs 691-709):
`update content set extractor_bindings_state['state'][binding_id] = '1'
where id = content_id` — a targeted update of one key of the completion
map on every row with the given id (affecting zero rows is still `Ok`). -/
def mark_content_as_processed (st : DbState) (content_id binding_id : String) : DbState :=
  { st with
    content := st.content.map fun c =>
      if c.id = content_id then { c with bindings_state := assocSet c.bindings_state binding_id 1 }
      else c }

/-- Model of `Repository::unprocessed_extraction_events` (persistence.rs 711-724):
all outbox rows with `processed_at` NULL, decoded back into
`ExtractionEvent` values. -/
def unprocessed_extraction_events (st : DbState) : List ExtractionEvent :=
  (st.events.filter fun e => e.processed_at = none).map EventRow.payload

/-- Model of `Repository::mark_extraction_event_as_processed` (persistence.rs
726-744): look the row up by id — `.one(..).await?.unwrap()` panics when no
row matches — then set `processed_at` to the current time. -/
def mark_extraction_event_as_processed (st : DbState) (extraction_id : String)
    (now : Int) : Outcome DbState :=
  if st.events.any (fun e => e.id = extraction_id) then
    .ok { st with
          events := st.events.map fun e =>
            if e.id = extraction_id then { e with processed_at := some now } else e }
  else .crashed

/-- The binding map `upsert_repository` serializes into the
`extractor_bindings` column: a `HashMap` keyed by binding id (a later
binding with the same id overwrites an earlier one). -/
def bindingsMap (ebs : List ExtractorBinding) : List (String × ExtractorBinding) :=
  ebs.foldl (fun m eb => m.filter (fun kv => kv.1 ≠ eb.id) ++ [(eb.id, eb)]) []

/-- The `ExtractorBindingAdded` outbox rows built by `upsert_repository`:
one per declared binding, with a supplied (nanoid) event id. -/
def mkBindingAddedEvents (repository_name : String) (ebs : List ExtractorBinding)
    (eventIds : List String) : List EventRow :=
  (ebs.zip eventIds).map fun p =>
    { id := p.2
      payload := { id := p.2
                   repository_id := repository_name
                   payload := .extractorBindingAdded repository_name p.1.id }
      processed_at := none }

/-- Model of `INSERT ... ON CONFLICT (name) DO UPDATE SET extractor_bindings = ...,
metadata = ...` on the `data_repository` table: a fresh name inserts the
whole row; an existing name updates only the `extractor_bindings` and
`metadata` columns (`data_connectors` and `name` keep their stored
values). -/
def dataRepoUpsert (tbl : List RepoRow) (rm : RepoRow) : List RepoRow :=
  if tbl.any (fun r => r.name = rm.name) then
    tbl.map fun r =>
      if r.name = rm.name then
        { r with extractor_bindings := rm.extractor_bindings, metadata := rm.metadata }
      else r
  else tbl ++ [rm]

/-- The body of `upsert_repository`'s transaction (persistence.rs 833-854):
upsert the repository row, then (when there is at least one binding) insert
the `ExtractorBindingAdded` event rows. `insertFault` / `eventFault` inject
an underlying-store failure of the respective statement. A failing
transaction rolls back. -/
def upsert_repository_txn (st : DbState) (rm : RepoRow) (evs : List EventRow)
    (insertFault eventFault : Option DbErr) : Except RepositoryError DbState :=
  match insertFault with
  | some e => .error (.databaseError e)
  | none =>
    let st1 := { st with repos := dataRepoUpsert st.repos rm }
    if evs.length > 0 then
      match eventFault with
      | some e => .error (.databaseError e)
      | none =>
        match insertEventsNoConflict st1.events evs with
        | .error e => .error (.databaseError e)
        | .ok etbl => .ok { st1 with events := etbl }
    else .ok st1

/-- The `data_repository` row built by `upsert_repository` (persistence.rs
824-829): the binding map keyed by id, the metadata, and the declared data
connectors. -/
def upsertRow (repository : DataRepository) : RepoRow :=
  { name := repository.name
    extractor_bindings := bindingsMap repository.extractor_bindings
    metadata := repository.metadata
    data_connectors := repository.data_connectors }

/-- Model of `Repository::upsert_repository` (persistence.rs 800-859), composed of
`upsertRow` and `upsert_repository_txn` above: run the transaction — and
then `let _ = ... .map_err(|e| LogicError(..)); Ok(())`: the transaction's
error is discarded and the function returns `Ok(())` unconditionally. -/
def upsert_repository (st : DbState) (repository : DataRepository)
    (eventIds : List String) (insertFault eventFault : Option DbErr) :
    Outcome DbState :=
  let evs := mkBindingAddedEvents repository.name repository.extractor_bindings eventIds
  match upsert_repository_txn st (upsertRow repository) evs insertFault eventFault with
  | .error _ => .ok st
  | .ok st2 => .ok st2

/-- Model of `Repository::insert_work` (persistence.rs 1007-1020): a plain
`INSERT` with no conflict clause — a second row with the same primary-key
id is a unique-key violation returned as `DatabaseError`. -/
def insert_work (st : DbState) (w : Work) : Outcome DbState :=
  if st.work.any (fun r => r.id = w.id) then
    .err (.databaseError (.uniqueViolation "work_pkey"))
  else .ok { st with work := st.work ++ [mkWorkRow w] }

/-- Model of `Repository::unallocated_work` (persistence.rs 1022-1029): Pending
work with no worker id. -/
def unallocated_work (st : DbState) : List WorkRow :=
  st.work.filter fun w => w.worker_id = none && w.state = .pending

/-- Model of `Repository::assign_work` (persistence.rs 1031-1043): for each
(work id, executor id) pair, set the worker id of the matching rows. -/
def assign_work (st : DbState) (allocation : List (String × String)) : DbState :=
  allocation.foldl
    (fun s p =>
      { s with
        work := s.work.map fun w =>
          if w.id = p.1 then { w with worker_id := some p.2 } else w })
    st

/-- Model of `Repository::update_work_state` (persistence.rs 1045-1056):
unconditional state set on the matching rows. -/
def update_work_state (st : DbState) (work_id : String) (state : WorkState) : DbState :=
  { st with
    work := st.work.map fun w => if w.id = work_id then { w with state := state } else w }

/-- Model of `Repository::work_for_worker` (persistence.rs 1058-1068): Pending work
assigned to the given worker. -/
def work_for_worker (st : DbState) (worker_id : String) : List WorkRow :=
  st.work.filter fun w => w.worker_id = some worker_id && w.state = .pending

/-- One mutating repository operation, for the temporal claims: every
state-changing operation of the modelled facade. -/
inductive Op : Type where
  | addContent (repository_name : String) (texts : List Text) (eventIds : List String)
  | upsertRepository (repository : DataRepository) (eventIds : List String)
      (insertFault eventFault : Option DbErr)
  | markContentProcessed (content_id binding_id : String)
  | markEventProcessed (extraction_id : String) (now : Int)
  | insertWork (w : Work)
  | assignWork (allocation : List (String × String))
  | updateWorkState (work_id : String) (state : WorkState)

/-- Apply one operation; a returned error or a panic leaves the store
unchanged (failed transactions roll back, a crashed process commits
nothing). -/
def step (st : DbState) : Op → DbState
  | .addContent repo texts ids =>
    match add_content st repo texts ids with
    | .ok st2 => st2
    | _ => st
  | .upsertRepository repo ids f1 f2 =>
    match upsert_repository st repo ids f1 f2 with
    | .ok st2 => st2
    | _ => st
  | .markContentProcessed cid bid => mark_content_as_processed st cid bid
  | .markEventProcessed eid now =>
    match mark_extraction_event_as_processed st eid now with
    | .ok st2 => st2
    | _ => st
  | .insertWork w =>
    match insert_work st w with
    | .ok st2 => st2
    | _ => st
  | .assignWork alloc => assign_work st alloc
  | .updateWorkState wid s => update_work_state st wid s

/-- Apply a sequence of operations in order. -/
def steps (st : DbState) (ops : List Op) : DbState :=
  ops.foldl step st

/-! ## Spec-side predicates -/

/-- The spec's reading of one filter: `Eq{field, value}` holds iff the
metadata field equals the (string) value, `Neq{field, value}` holds iff the
field is present with a different value. -/
def filterHolds (metadata : List (String × Jval)) : ExtractorFilter → Prop
  | .eq field value => ∃ v, value.asStr = some v ∧ metaText metadata field = some v
  | .neq field value =>
    ∃ v s, value.asStr = some v ∧ metaText metadata field = some s ∧ s ≠ v

/-- The outbox row for `eid` exists and is marked processed (the event can
never be delivered again). -/
def eventDone (st : DbState) (eid : String) : Prop :=
  (∃ e ∈ st.events, e.id = eid) ∧ ∀ e ∈ st.events, e.id = eid → e.processed_at ≠ none

/-- Payload ids agree with row ids — true of every row the facade writes. -/
def EvConsistent (st : DbState) : Prop :=
  ∀ e ∈ st.events, e.payload.id = e.id

/-- The content row for `cid` exists and its completion marker for `bid` is
set (≥ 1). -/
def contentMarkedInv (st : DbState) (cid bid : String) : Prop :=
  (∃ c ∈ st.content, c.id = cid) ∧ ∀ c ∈ st.content, c.id = cid → 1 ≤ markerOf c bid

/-! ## Lemmas about the insert primitives -/

theorem insertContentBatch_sub (rs : List ContentRow) (tbl : List ContentRow)
    (c : ContentRow) (hc : c ∈ tbl) : c ∈ (insertContentBatch tbl rs).1 := by
  induction rs generalizing tbl with
  | nil => simpa [insertContentBatch] using hc
  | cons r rs ih =>
    simp only [insertContentBatch]
    by_cases h : tbl.any (fun c => c.id = r.id)
    · simp only [h, if_pos]
      exact ih tbl hc
    · simp only [h, if_neg, Bool.false_eq_true, not_false_iff]
      exact ih (tbl ++ [r]) (List.mem_append_left _ hc)

theorem insertContentBatch_mem (rs : List ContentRow) (tbl : List ContentRow)
    (c : ContentRow) (hc : c ∈ (insertContentBatch tbl rs).1) :
    c ∈ tbl ∨ (c ∈ rs ∧ ∀ c' ∈ tbl, c'.id ≠ c.id) := by
  induction rs generalizing tbl with
  | nil => simp [insertContentBatch] at hc; exact Or.inl hc
  | cons r rs ih =>
    simp only [insertContentBatch] at hc
    by_cases h : tbl.any (fun c => c.id = r.id)
    · simp only [h, if_pos] at hc
      rcases ih tbl hc with h1 | ⟨h1, h2⟩
      · exact Or.inl h1
      · exact Or.inr ⟨List.mem_cons_of_mem _ h1, h2⟩
    · simp only [h, if_neg, Bool.false_eq_true, not_false_iff] at hc
      rcases ih (tbl ++ [r]) hc with h1 | ⟨h1, h2⟩
      · rcases List.mem_append.mp h1 with h3 | h3
        · exact Or.inl h3
        · have hcr : c = r := by simpa using h3
          subst hcr
          refine Or.inr ⟨List.mem_cons_self _ _, fun c' hc' => ?_⟩
          simp only [List.any_eq_true, decide_eq_true_eq, not_exists, not_and] at h
          exact h c' hc'
      · refine Or.inr ⟨List.mem_cons_of_mem _ h1, fun c' hc' => ?_⟩
        exact h2 c' (List.mem_append_left _ hc')

theorem insertContentBatch_presence (rs : List ContentRow) (tbl : List ContentRow)
    (r : ContentRow) (hr : r ∈ rs) :
    ∃ c ∈ (insertContentBatch tbl rs).1, c.id = r.id := by
  induction rs generalizing tbl with
  | nil => cases hr
  | cons r0 rs ih =>
    simp only [insertContentBatch]
    by_cases h : tbl.any (fun c => c.id = r0.id)
    · simp only [h, if_pos]
      rcases List.mem_cons.mp hr with h1 | h1
      · subst h1
        simp only [List.any_eq_true, decide_eq_true_eq] at h
        obtain ⟨c, hc, hid⟩ := h
        exact ⟨c, insertContentBatch_sub rs tbl c hc, hid⟩
      · exact ih tbl h1
    · simp only [h, if_neg, Bool.false_eq_true, not_false_iff]
      rcases List.mem_cons.mp hr with h1 | h1
      · subst h1
        exact ⟨r, insertContentBatch_sub rs (tbl ++ [r]) r (by simp), rfl⟩
      · exact ih (tbl ++ [r0]) h1

theorem insertContentBatch_allConflict (rs : List ContentRow) (tbl : List ContentRow)
    (h : ∀ r ∈ rs, ∃ c ∈ tbl, c.id = r.id) :
    insertContentBatch tbl rs = (tbl, 0) := by
  induction rs with
  | nil => simp [insertContentBatch]
  | cons r rs ih =>
    have hh : tbl.any (fun c => c.id = r.id) = true := by
      obtain ⟨c, hc, hid⟩ := h r (List.mem_cons_self _ _)
      simp only [List.any_eq_true, decide_eq_true_eq]
      exact ⟨c, hc, hid⟩
    simp only [insertContentBatch, hh, if_pos]
    exact ih (fun r0 hr0 => h r0 (List.mem_cons_of_mem _ hr0))

theorem insertEventsNoConflict_ok_shape (evs : List EventRow) (tbl etbl : List EventRow)
    (h : insertEventsNoConflict tbl evs = .ok etbl) : etbl = tbl ++ evs := by
  induction evs generalizing tbl with
  | nil => simp [insertEventsNoConflict] at h; simp [h.symm]
  | cons e es ih =>
    simp only [insertEventsNoConflict] at h
    by_cases hc : tbl.any (fun r => r.id = e.id)
    · simp [hc] at h
    · simp only [hc, if_neg, Bool.false_eq_true, not_false_iff] at h
      have := ih (tbl ++ [e]) h
      simp [this]

theorem insertEventsNoConflict_ok_fresh (evs : List EventRow) (tbl etbl : List EventRow)
    (h : insertEventsNoConflict tbl evs = .ok etbl) :
    ∀ ev ∈ evs, ∀ r ∈ tbl, r.id ≠ ev.id := by
  induction evs generalizing tbl with
  | nil => intro ev hev; cases hev
  | cons e es ih =>
    simp only [insertEventsNoConflict] at h
    by_cases hc : tbl.any (fun r => r.id = e.id)
    · simp [hc] at h
    · simp only [hc, if_neg, Bool.false_eq_true, not_false_iff] at h
      intro ev hev r hr
      rcases List.mem_cons.mp hev with h1 | h1
      · subst h1
        simp only [List.any_eq_true, decide_eq_true_eq, not_exists, not_and] at hc
        exact hc r hr
      · exact ih (tbl ++ [e]) h ev h1 r (List.mem_append_left _ hr)

theorem insertEventsNoConflict_fresh (evs : List EventRow) (tbl : List EventRow)
    (hfresh : ∀ ev ∈ evs, ∀ r ∈ tbl, r.id ≠ ev.id)
    (hnodup : (evs.map EventRow.id).Nodup) :
    insertEventsNoConflict tbl evs = .ok (tbl ++ evs) := by
  induction evs generalizing tbl with
  | nil => simp [insertEventsNoConflict]
  | cons e es ih =>
    have hc : tbl.any (fun r => r.id = e.id) = false := by
      simp only [List.any_eq_false, decide_eq_true_eq]
      intro r hr
      exact hfresh e (List.mem_cons_self _ _) r hr
    simp only [insertEventsNoConflict, hc, Bool.false_eq_true, if_neg, not_false_iff]
    have hres := ih (tbl ++ [e])
      (fun ev hev r hr => by
        rcases List.mem_append.mp hr with h1 | h1
        · exact hfresh ev (List.mem_cons_of_mem _ hev) r h1
        · have hre : r = e := by simpa using h1
          subst hre
          simp only [List.map_cons, List.nodup_cons, List.mem_map] at hnodup
          intro hcontra
          exact hnodup.1 ⟨ev, hev, hcontra.symm⟩)
      (by simp only [List.map_cons, List.nodup_cons] at hnodup; exact hnodup.2)
    simpa using hres

/-! ## Lemmas about the completion map -/

theorem assocSet_find_self (m : List (String × Nat)) (k : String) (v : Nat) :
    (assocSet m k v).find? (fun kv => kv.1 = k) = some (k, v) := by
  induction m with
  | nil => simp [assocSet]
  | cons kv rest ih =>
    simp only [assocSet]
    by_cases h : kv.1 = k
    · simp [h]
    · simp only [h, if_neg, not_false_iff]
      rw [List.find?_cons_of_neg _ (by simpa using h)]
      exact ih

theorem assocSet_find_other (m : List (String × Nat)) (k k' : String) (v : Nat)
    (hne : k' ≠ k) :
    (assocSet m k' v).find? (fun kv => kv.1 = k) = m.find? (fun kv => kv.1 = k) := by
  induction m with
  | nil => simp [assocSet, hne]
  | cons kv rest ih =>
    simp only [assocSet]
    by_cases h : kv.1 = k'
    · simp only [h, if_pos]
      have hk : ¬kv.1 = k := by rw [h]; exact hne
      rw [List.find?_cons_of_neg _ (by simpa using hne),
        List.find?_cons_of_neg _ (by simpa using hk)]
    · simp only [h, if_neg, not_false_iff]
      by_cases hk : kv.1 = k
      · rw [List.find?_cons_of_pos _ (by simpa using hk),
          List.find?_cons_of_pos _ (by simpa using hk)]
      · rw [List.find?_cons_of_neg _ (by simpa using hk),
          List.find?_cons_of_neg _ (by simpa using hk)]
        exact ih

theorem markerOf_set_self (c : ContentRow) (bid : String) :
    markerOf { c with bindings_state := assocSet c.bindings_state bid 1 } bid = 1 := by
  simp [markerOf, assocSet_find_self]

theorem markerOf_set_other (c : ContentRow) (bid bid' : String) (hne : bid' ≠ bid) :
    markerOf { c with bindings_state := assocSet c.bindings_state bid' 1 } bid =
      markerOf c bid := by
  simp [markerOf, assocSet_find_other _ _ _ _ hne]

theorem markerOf_set_ge (c : ContentRow) (bid bid' : String) (h : 1 ≤ markerOf c bid) :
    1 ≤ markerOf { c with bindings_state := assocSet c.bindings_state bid' 1 } bid := by
  by_cases hne : bid' = bid
  · subst hne; rw [markerOf_set_self]
  · rwa [markerOf_set_other _ _ _ hne]

/-! ## Lemmas about filter compilation -/

theorem compileFilters_none_of_bad (fs : List ExtractorFilter) (f : ExtractorFilter)
    (hf : f ∈ fs) (hbad : f.value.asStr = none) : compileFilters fs = none := by
  induction fs with
  | nil => cases hf
  | cons f0 fs ih =>
    rcases List.mem_cons.mp hf with h1 | h1
    · subst h1
      cases f with
      | eq field value =>
        simp only [ExtractorFilter.value] at hbad
        simp [compileFilters, hbad]
      | neq field value =>
        simp only [ExtractorFilter.value] at hbad
        simp [compileFilters, hbad]
    · cases f0 with
      | eq field value =>
        simp only [compileFilters]
        cases hv : value.asStr with
        | none => rfl
        | some v => rw [ih h1]
      | neq field value =>
        simp only [compileFilters]
        cases hv : value.asStr with
        | none => rfl
        | some v => rw [ih h1]

theorem compileFilters_sound (fs : List ExtractorFilter) (cs : List CompiledFilter)
    (h : compileFilters fs = some cs) (c : ContentRow) :
    (cs.all (satClause c) = true) ↔ ∀ f ∈ fs, filterHolds c.metadata f := by
  induction fs generalizing cs with
  | nil =>
    simp only [compileFilters, Option.some.injEq] at h
    subst h
    simp
  | cons f0 fs ih =>
    cases f0 with
    | eq field value =>
      simp only [compileFilters] at h
      cases hv : value.asStr with
      | none => rw [hv] at h; cases h
      | some v =>
        rw [hv] at h
        cases hrest : compileFilters fs with
        | none => rw [hrest] at h; cases h
        | some cs0 =>
          rw [hrest] at h
          simp only [Option.some.injEq] at h
          subst h
          simp only [List.all_cons, Bool.and_eq_true, List.mem_cons, forall_eq_or_imp]
          rw [ih cs0 hrest]
          constructor
          · rintro ⟨h1, h2⟩
            refine ⟨⟨v, hv, ?_⟩, h2⟩
            simp only [satClause] at h1
            cases hm : metaText c.metadata field with
            | none => rw [hm] at h1; cases h1
            | some m =>
              rw [hm] at h1
              simp only [if_pos, decide_eq_true_eq] at h1
              rw [h1]
          · rintro ⟨⟨v0, hv0, hm⟩, h2⟩
            rw [hv] at hv0
            cases hv0
            refine ⟨?_, h2⟩
            simp [satClause, hm]
    | neq field value =>
      simp only [compileFilters] at h
      cases hv : value.asStr with
      | none => rw [hv] at h; cases h
      | some v =>
        rw [hv] at h
        cases hrest : compileFilters fs with
        | none => rw [hrest] at h; cases h
        | some cs0 =>
          rw [hrest] at h
          simp only [Option.some.injEq] at h
          subst h
          simp only [List.all_cons, Bool.and_eq_true, List.mem_cons, forall_eq_or_imp]
          rw [ih cs0 hrest]
          constructor
          · rintro ⟨h1, h2⟩
            simp only [satClause] at h1
            cases hm : metaText c.metadata field with
            | none => rw [hm] at h1; cases h1
            | some m =>
              rw [hm] at h1
              simp only [Bool.if_false_left, Bool.and_eq_true, decide_eq_true_eq] at h1
              exact ⟨⟨v, m, hv, hm, by simpa using h1⟩, h2⟩
          · rintro ⟨⟨v0, s, hv0, hm, hne⟩, h2⟩
            rw [hv] at hv0
            cases hv0
            refine ⟨?_, h2⟩
            simp [satClause, hm, hne]

theorem compileFilters_mem_neq (fs : List ExtractorFilter) (cs : List CompiledFilter)
    (h : compileFilters fs = some cs) (field : String) (value : Jval)
    (hf : ExtractorFilter.neq field value ∈ fs) :
    ∃ v, value.asStr = some v ∧
      ({ isEq := false, field := field, value := v } : CompiledFilter) ∈ cs := by
  induction fs generalizing cs with
  | nil => cases hf
  | cons f0 fs ih =>
    cases f0 with
    | eq field0 value0 =>
      simp only [compileFilters] at h
      cases hv : value0.asStr with
      | none => rw [hv] at h; cases h
      | some v0 =>
        rw [hv] at h
        cases hrest : compileFilters fs with
        | none => rw [hrest] at h; cases h
        | some cs0 =>
          rw [hrest] at h
          simp only [Option.some.injEq] at h
          subst h
          rcases List.mem_cons.mp hf with h1 | h1
          · cases h1
          · obtain ⟨v, hva, hc⟩ := ih cs0 hrest h1
            exact ⟨v, hva, List.mem_cons_of_mem _ hc⟩
    | neq field0 value0 =>
      simp only [compileFilters] at h
      cases hv : value0.asStr with
      | none => rw [hv] at h; cases h
      | some v0 =>
        rw [hv] at h
        cases hrest : compileFilters fs with
        | none => rw [hrest] at h; cases h
        | some cs0 =>
          rw [hrest] at h
          simp only [Option.some.injEq] at h
          subst h
          rcases List.mem_cons.mp hf with h1 | h1
          · rcases h1 with ⟨rfl, rfl⟩
            exact ⟨v0, hv, List.mem_cons_self _ _⟩
          · obtain ⟨v, hva, hc⟩ := ih cs0 hrest h1
            exact ⟨v, hva, List.mem_cons_of_mem _ hc⟩

/-! ## Effect lemmas for the facade operations -/

theorem mkCreateContentEvents_spec (repo : String) (texts : List Text)
    (ids : List String) :
    ∀ ev ∈ mkCreateContentEvents repo texts ids,
      ev.payload.id = ev.id ∧ ev.processed_at = none := by
  intro ev hev
  simp only [mkCreateContentEvents, List.mem_map] at hev
  obtain ⟨p, _, rfl⟩ := hev
  exact ⟨rfl, rfl⟩

theorem mkBindingAddedEvents_spec (repo : String) (ebs : List ExtractorBinding)
    (ids : List String) :
    ∀ ev ∈ mkBindingAddedEvents repo ebs ids,
      ev.payload.id = ev.id ∧ ev.processed_at = none := by
  intro ev hev
  simp only [mkBindingAddedEvents, List.mem_map] at hev
  obtain ⟨p, _, rfl⟩ := hev
  exact ⟨rfl, rfl⟩

theorem add_content_ok_elim (st st' : DbState) (repo : String) (texts : List Text)
    (ids : List String) (h : add_content st repo texts ids = .ok st') :
    (st' = st ∧ (insertContentBatch st.content (texts.map (mkContentRow repo))).2 = 0) ∨
    ((insertContentBatch st.content (texts.map (mkContentRow repo))).2 ≠ 0 ∧
      st' = { st with
              content := (insertContentBatch st.content (texts.map (mkContentRow repo))).1,
              events := st.events ++ mkCreateContentEvents repo texts ids } ∧
      insertEventsNoConflict st.events (mkCreateContentEvents repo texts ids) =
        .ok (st.events ++ mkCreateContentEvents repo texts ids)) := by
  simp only [add_content] at h
  by_cases h0 : (insertContentBatch st.content (texts.map (mkContentRow repo))).2 = 0
  · rw [if_pos h0] at h
    cases h
    exact Or.inl ⟨rfl, h0⟩
  · rw [if_neg h0] at h
    cases hins : insertEventsNoConflict st.events (mkCreateContentEvents repo texts ids) with
    | error e => rw [hins] at h; cases h
    | ok etbl =>
      rw [hins] at h
      cases h
      have hsh := insertEventsNoConflict_ok_shape _ _ _ hins
      refine Or.inr ⟨h0, ?_, ?_⟩
      · rw [hsh]
      · rw [hsh]

theorem add_content_ids_present (st st' : DbState) (repo : String) (texts : List Text)
    (ids : List String) (h : add_content st repo texts ids = .ok st') :
    ∀ t ∈ texts, ∃ c ∈ st'.content, c.id = t.id := by
  intro t ht
  rcases add_content_ok_elim st st' repo texts ids h with ⟨heq, h0⟩ | ⟨h0, heq, _⟩
  · -- nothing inserted: every row of the batch already had its id present
    subst heq
    have hz0 : ∀ rs tbl, (insertContentBatch tbl rs).2 = 0 →
        ∀ r ∈ rs, ∃ c ∈ tbl, c.id = r.id := by
      intro rs
      induction rs with
      | nil => intro tbl _ r hr; cases hr
      | cons r0 rs ih =>
        intro tbl hz r hr
        simp only [insertContentBatch] at hz
        by_cases hc : tbl.any (fun c => c.id = r0.id)
        · rw [if_pos hc] at hz
          rcases List.mem_cons.mp hr with h1 | h1
          · subst h1
            simp only [List.any_eq_true, decide_eq_true_eq] at hc
            exact hc
          · exact ih tbl hz r h1
        · rw [if_neg hc] at hz
          simp at hz
    have hrow := hz0 (texts.map (mkContentRow repo)) st'.content h0 (mkContentRow repo t)
      (List.mem_map_of_mem _ ht)
    simpa [mkContentRow] using hrow
  · subst heq
    have hpres := insertContentBatch_presence (texts.map (mkContentRow repo)) st.content
      (mkContentRow repo t) (List.mem_map_of_mem _ ht)
    simpa [mkContentRow] using hpres

theorem add_content_rerun (st st' : DbState) (repo : String) (texts : List Text)
    (ids ids2 : List String) (h : add_content st repo texts ids = .ok st') :
    add_content st' repo texts ids2 = .ok st' := by
  have hall : ∀ r ∈ texts.map (mkContentRow repo), ∃ c ∈ st'.content, c.id = r.id := by
    intro r hr
    simp only [List.mem_map] at hr
    obtain ⟨t, ht, rfl⟩ := hr
    simpa [mkContentRow] using add_content_ids_present st st' repo texts ids h t ht
  simp [add_content, insertContentBatch_allConflict _ _ hall]

theorem upsert_repository_ok_elim (st st' : DbState) (repo : DataRepository)
    (ids : List String) (f1 f2 : Option DbErr)
    (h : upsert_repository st repo ids f1 f2 = .ok st') :
    st' = st ∨
    ∃ evs2, st' = { st with
                    repos := dataRepoUpsert st.repos (upsertRow repo),
                    events := st.events ++ evs2 } ∧
      (∀ ev ∈ evs2, (∀ r ∈ st.events, r.id ≠ ev.id) ∧
        ev.payload.id = ev.id ∧ ev.processed_at = none) := by
  simp only [upsert_repository, upsert_repository_txn] at h
  cases f1 with
  | some e => cases h; exact Or.inl rfl
  | none =>
    by_cases hl :
        (mkBindingAddedEvents repo.name repo.extractor_bindings ids).length > 0
    · rw [if_pos hl] at h
      cases f2 with
      | some e => cases h; exact Or.inl rfl
      | none =>
        cases hins : insertEventsNoConflict st.events
            (mkBindingAddedEvents repo.name repo.extractor_bindings ids) with
        | error e => rw [hins] at h; cases h; exact Or.inl rfl
        | ok etbl =>
          rw [hins] at h
          cases h
          have hsh := insertEventsNoConflict_ok_shape _ _ _ hins
          subst hsh
          refine Or.inr ⟨mkBindingAddedEvents repo.name repo.extractor_bindings ids,
            rfl, fun ev hev => ?_⟩
          exact ⟨fun r hr => insertEventsNoConflict_ok_fresh _ _ _ hins ev hev r hr,
            (mkBindingAddedEvents_spec _ _ _ ev hev).1,
            (mkBindingAddedEvents_spec _ _ _ ev hev).2⟩
    · rw [if_neg hl] at h
      cases h
      exact Or.inr ⟨[], by simp, by simp⟩

theorem assign_work_frame (alloc : List (String × String)) (st : DbState) :
    (assign_work st alloc).content = st.content ∧
    (assign_work st alloc).events = st.events ∧
    (assign_work st alloc).repos = st.repos := by
  induction alloc generalizing st with
  | nil => exact ⟨rfl, rfl, rfl⟩
  | cons p rest ih =>
    simp only [assign_work, List.foldl_cons]
    exact ih _

/-! ## Invariant preservation over the operation alphabet -/

theorem step_preserves_eventDone (st : DbState) (op : Op) (eid : String)
    (h : eventDone st eid) : eventDone (step st op) eid := by
  obtain ⟨⟨e0, he0, he0id⟩, hall⟩ := h
  cases op with
  | addContent repo texts ids =>
    simp only [step]
    cases hres : add_content st repo texts ids with
    | ok st2 =>
      rcases add_content_ok_elim st st2 repo texts ids hres with ⟨heq, _⟩ | ⟨_, heq, hins⟩
      · subst heq; exact ⟨⟨e0, he0, he0id⟩, hall⟩
      · subst heq
        refine ⟨⟨e0, List.mem_append_left _ he0, he0id⟩, fun e he heid => ?_⟩
        rcases List.mem_append.mp he with h1 | h1
        · exact hall e h1 heid
        · exfalso
          have := insertEventsNoConflict_ok_fresh _ _ _ hins e h1 e0 he0
          rw [he0id, heid] at this
          exact this rfl
    | err e => exact ⟨⟨e0, he0, he0id⟩, hall⟩
    | crashed => exact ⟨⟨e0, he0, he0id⟩, hall⟩
  | upsertRepository repo ids f1 f2 =>
    simp only [step]
    cases hres : upsert_repository st repo ids f1 f2 with
    | ok st2 =>
      rcases upsert_repository_ok_elim st st2 repo ids f1 f2 hres with heq | ⟨evs2, heq, hspec⟩
      · subst heq; exact ⟨⟨e0, he0, he0id⟩, hall⟩
      · subst heq
        refine ⟨⟨e0, List.mem_append_left _ he0, he0id⟩, fun e he heid => ?_⟩
        rcases List.mem_append.mp he with h1 | h1
        · exact hall e h1 heid
        · exfalso
          have := (hspec e h1).1 e0 he0
          rw [he0id, heid] at this
          exact this rfl
    | err e => exact ⟨⟨e0, he0, he0id⟩, hall⟩
    | crashed => exact ⟨⟨e0, he0, he0id⟩, hall⟩
  | markContentProcessed cid bid =>
    exact ⟨⟨e0, he0, he0id⟩, hall⟩
  | markEventProcessed eid' now =>
    simp only [step, mark_extraction_event_as_processed]
    by_cases hex : st.events.any (fun e => e.id = eid')
    · simp only [hex, if_pos]
      constructor
      · refine ⟨if e0.id = eid' then { e0 with processed_at := some now } else e0,
          List.mem_map_of_mem _ he0, ?_⟩
        by_cases h1 : e0.id = eid'
        · rw [if_pos h1]
          simpa using he0id
        · rw [if_neg h1]
          exact he0id
      · intro e he heid
        simp only [List.mem_map] at he
        obtain ⟨e1, he1, rfl⟩ := he
        by_cases h1 : e1.id = eid'
        · simp [h1]
        · simp only [h1, if_neg, not_false_iff]
          simp only [h1, if_neg, not_false_iff] at heid
          exact hall e1 he1 heid
    · simp only [hex, Bool.false_eq_true, if_neg, not_false_iff]
      exact ⟨⟨e0, he0, he0id⟩, hall⟩
  | insertWork w =>
    simp only [step, insert_work]
    by_cases hex : st.work.any (fun r => r.id = w.id)
    · simp only [hex, if_pos]
      exact ⟨⟨e0, he0, he0id⟩, hall⟩
    · simp only [hex, Bool.false_eq_true, if_neg, not_false_iff]
      exact ⟨⟨e0, he0, he0id⟩, hall⟩
  | assignWork alloc =>
    simp only [step]
    rw [eventDone, (assign_work_frame alloc st).2.1]
    exact ⟨⟨e0, he0, he0id⟩, hall⟩
  | updateWorkState wid s =>
    exact ⟨⟨e0, he0, he0id⟩, hall⟩

theorem steps_preserve_eventDone (st : DbState) (ops : List Op) (eid : String)
    (h : eventDone st eid) : eventDone (steps st ops) eid := by
  induction ops generalizing st with
  | nil => exact h
  | cons op rest ih =>
    simp only [steps, List.foldl_cons]
    exact ih (step st op) (step_preserves_eventDone st op eid h)

theorem step_preserves_EvConsistent (st : DbState) (op : Op)
    (h : EvConsistent st) : EvConsistent (step st op) := by
  cases op with
  | addContent repo texts ids =>
    simp only [step]
    cases hres : add_content st repo texts ids with
    | ok st2 =>
      rcases add_content_ok_elim st st2 repo texts ids hres with ⟨heq, _⟩ | ⟨_, heq, _⟩
      · subst heq; exact h
      · subst heq
        intro e he
        rcases List.mem_append.mp he with h1 | h1
        · exact h e h1
        · exact (mkCreateContentEvents_spec _ _ _ e h1).1
    | err e => exact h
    | crashed => exact h
  | upsertRepository repo ids f1 f2 =>
    simp only [step]
    cases hres : upsert_repository st repo ids f1 f2 with
    | ok st2 =>
      rcases upsert_repository_ok_elim st st2 repo ids f1 f2 hres with heq | ⟨evs2, heq, hspec⟩
      · subst heq; exact h
      · subst heq
        intro e he
        rcases List.mem_append.mp he with h1 | h1
        · exact h e h1
        · exact (hspec e h1).2.1
    | err e => exact h
    | crashed => exact h
  | markContentProcessed cid bid => exact h
  | markEventProcessed eid' now =>
    simp only [step, mark_extraction_event_as_processed]
    by_cases hex : st.events.any (fun e => e.id = eid')
    · simp only [hex, if_pos]
      intro e he
      simp only [List.mem_map] at he
      obtain ⟨e1, he1, rfl⟩ := he
      by_cases h1 : e1.id = eid'
      · rw [if_pos h1]
        simpa using h e1 he1
      · rw [if_neg h1]
        exact h e1 he1
    · simp only [hex, Bool.false_eq_true, if_neg, not_false_iff]
      exact h
  | insertWork w =>
    simp only [step, insert_work]
    by_cases hex : st.work.any (fun r => r.id = w.id)
    · simp only [hex, if_pos]; exact h
    · simp only [hex, Bool.false_eq_true, if_neg, not_false_iff]; exact h
  | assignWork alloc =>
    simp only [step]
    rw [EvConsistent, (assign_work_frame alloc st).2.1]
    exact h
  | updateWorkState wid s => exact h

theorem steps_preserve_EvConsistent (st : DbState) (ops : List Op)
    (h : EvConsistent st) : EvConsistent (steps st ops) := by
  induction ops generalizing st with
  | nil => exact h
  | cons op rest ih =>
    simp only [steps, List.foldl_cons]
    exact ih (step st op) (step_preserves_EvConsistent st op h)

theorem step_preserves_contentMarked (st : DbState) (op : Op) (cid bid : String)
    (h : contentMarkedInv st cid bid) : contentMarkedInv (step st op) cid bid := by
  obtain ⟨⟨c0, hc0, hc0id⟩, hall⟩ := h
  cases op with
  | addContent repo texts ids =>
    simp only [step]
    cases hres : add_content st repo texts ids with
    | ok st2 =>
      rcases add_content_ok_elim st st2 repo texts ids hres with ⟨heq, _⟩ | ⟨_, heq, _⟩
      · subst heq; exact ⟨⟨c0, hc0, hc0id⟩, hall⟩
      · subst heq
        constructor
        · exact ⟨c0, insertContentBatch_sub _ _ _ hc0, hc0id⟩
        · intro c hc hcid
          rcases insertContentBatch_mem _ _ _ hc with h1 | ⟨_, h2⟩
          · exact hall c h1 hcid
          · exfalso
            have := h2 c0 hc0
            rw [hc0id, hcid] at this
            exact this rfl
    | err e => exact ⟨⟨c0, hc0, hc0id⟩, hall⟩
    | crashed => exact ⟨⟨c0, hc0, hc0id⟩, hall⟩
  | upsertRepository repo ids f1 f2 =>
    simp only [step]
    cases hres : upsert_repository st repo ids f1 f2 with
    | ok st2 =>
      rcases upsert_repository_ok_elim st st2 repo ids f1 f2 hres with heq | ⟨evs2, heq, _⟩
      · subst heq; exact ⟨⟨c0, hc0, hc0id⟩, hall⟩
      · subst heq; exact ⟨⟨c0, hc0, hc0id⟩, hall⟩
    | err e => exact ⟨⟨c0, hc0, hc0id⟩, hall⟩
    | crashed => exact ⟨⟨c0, hc0, hc0id⟩, hall⟩
  | markContentProcessed cid' bid' =>
    simp only [step, mark_content_as_processed]
    constructor
    · refine ⟨if c0.id = cid' then
          { c0 with bindings_state := assocSet c0.bindings_state bid' 1 } else c0,
        List.mem_map_of_mem _ hc0, ?_⟩
      by_cases h1 : c0.id = cid'
      · rw [if_pos h1]
        simpa using hc0id
      · rw [if_neg h1]
        exact hc0id
    · intro c hc hcid
      simp only [List.mem_map] at hc
      obtain ⟨c1, hc1, rfl⟩ := hc
      by_cases h1 : c1.id = cid'
      · rw [if_pos h1]
        rw [if_pos h1] at hcid
        have : c1.id = cid := by simpa using hcid
        exact markerOf_set_ge c1 bid bid' (hall c1 hc1 this)
      · rw [if_neg h1]
        rw [if_neg h1] at hcid
        exact hall c1 hc1 hcid
  | markEventProcessed eid' now =>
    simp only [step, mark_extraction_event_as_processed]
    by_cases hex : st.events.any (fun e => e.id = eid')
    · simp only [hex, if_pos]
      exact ⟨⟨c0, hc0, hc0id⟩, hall⟩
    · simp only [hex, Bool.false_eq_true, if_neg, not_false_iff]
      exact ⟨⟨c0, hc0, hc0id⟩, hall⟩
  | insertWork w =>
    simp only [step, insert_work]
    by_cases hex : st.work.any (fun r => r.id = w.id)
    · simp only [hex, if_pos]
      exact ⟨⟨c0, hc0, hc0id⟩, hall⟩
    · simp only [hex, Bool.false_eq_true, if_neg, not_false_iff]
      exact ⟨⟨c0, hc0, hc0id⟩, hall⟩
  | assignWork alloc =>
    simp only [step]
    rw [contentMarkedInv, (assign_work_frame alloc st).1]
    exact ⟨⟨c0, hc0, hc0id⟩, hall⟩
  | updateWorkState wid s =>
    exact ⟨⟨c0, hc0, hc0id⟩, hall⟩

theorem steps_preserve_contentMarked (st : DbState) (ops : List Op) (cid bid : String)
    (h : contentMarkedInv st cid bid) : contentMarkedInv (steps st ops) cid bid := by
  induction ops generalizing st with
  | nil => exact h
  | cons op rest ih =>
    simp only [steps, List.foldl_cons]
    exact ih (step st op) (step_preserves_contentMarked st op cid bid h)

/-! ## Query-level helper lemmas -/

theorem mem_unprocessed_iff (st : DbState) (p : ExtractionEvent) :
    p ∈ unprocessed_extraction_events st ↔
      ∃ e ∈ st.events, e.processed_at = none ∧ e.payload = p := by
  simp only [unprocessed_extraction_events, List.mem_map, List.mem_filter,
    decide_eq_true_eq]
  constructor
  · rintro ⟨e, ⟨he, hp⟩, rfl⟩
    exact ⟨e, he, hp, rfl⟩
  · rintro ⟨e, he, hp, rfl⟩
    exact ⟨e, ⟨he, hp⟩, rfl⟩

theorem unapplied_excludes_marked (st : DbState) (repo : String)
    (eb : ExtractorBinding) (cidq : Option String) (res : List ContentRow)
    (cid : String) (hinv : contentMarkedInv st cid eb.id)
    (hres : content_with_unapplied_extractor st repo eb cidq = .ok res) :
    ∀ c ∈ res, c.id ≠ cid := by
  intro c hc
  simp only [content_with_unapplied_extractor] at hres
  cases hcs : compileFilters eb.filters with
  | none => rw [hcs] at hres; cases hres
  | some cs =>
    rw [hcs] at hres
    cases hres
    rw [List.mem_filter] at hc
    obtain ⟨hmem, hpred⟩ := hc
    simp only [unappliedPred, Bool.and_eq_true, decide_eq_true_eq] at hpred
    intro hcid
    have hmk := hinv.2 c hmem hcid
    have hlt := hpred.1.1.2
    exact absurd hmk (by exact Nat.not_le.mpr hlt)

theorem mark_event_ok_elim (st st1 : DbState) (eid : String) (now : Int)
    (h : mark_extraction_event_as_processed st eid now = .ok st1) :
    st.events.any (fun e => e.id = eid) = true ∧
    st1 = { st with
            events := st.events.map fun e =>
              if e.id = eid then { e with processed_at := some now } else e } := by
  simp only [mark_extraction_event_as_processed] at h
  by_cases hex : st.events.any (fun e => e.id = eid)
  · rw [if_pos hex] at h
    cases h
    exact ⟨hex, rfl⟩
  · rw [if_neg hex] at h
    cases h

theorem mark_event_ok_done (st st1 : DbState) (eid : String) (now : Int)
    (h : mark_extraction_event_as_processed st eid now = .ok st1) :
    eventDone st1 eid := by
  obtain ⟨hex, heq⟩ := mark_event_ok_elim st st1 eid now h
  subst heq
  simp only [List.any_eq_true, decide_eq_true_eq] at hex
  obtain ⟨e0, he0, he0id⟩ := hex
  constructor
  · refine ⟨if e0.id = eid then { e0 with processed_at := some now } else e0,
      List.mem_map_of_mem _ he0, ?_⟩
    rw [if_pos he0id]
    simpa using he0id
  · intro e he heid
    simp only [List.mem_map] at he
    obtain ⟨e1, he1, rfl⟩ := he
    by_cases h1 : e1.id = eid
    · rw [if_pos h1]
      simp
    · rw [if_neg h1]
      rw [if_neg h1] at heid
      exact absurd heid h1

theorem remark_poll_eq (evs : List EventRow) (eid : String) (now2 : Int)
    (h : ∀ e ∈ evs, e.id = eid → e.processed_at ≠ none) :
    ((evs.map fun e =>
        if e.id = eid then { e with processed_at := some now2 } else e).filter
      fun e => e.processed_at = none).map EventRow.payload =
    (evs.filter fun e => e.processed_at = none).map EventRow.payload := by
  induction evs with
  | nil => rfl
  | cons e rest ih =>
    have ihr := ih (fun e1 he1 => h e1 (List.mem_cons_of_mem _ he1))
    by_cases h1 : e.id = eid
    · have hp : e.processed_at ≠ none := h e (List.mem_cons_self _ _) h1
      simp only [List.map_cons, if_pos h1, List.filter_cons]
      rw [if_neg (by simp), if_neg (by simpa using hp)]
      exact ihr
    · simp only [List.map_cons, if_neg h1, List.filter_cons]
      by_cases hp : e.processed_at = none
      · rw [if_pos (by simpa using hp), if_pos (by simpa using hp)]
        simpa using ihr
      · rw [if_neg (by simpa using hp), if_neg (by simpa using hp)]
        exact ihr

theorem mark_content_ok_marked (st : DbState) (cid bid : String)
    (hex : ∃ c ∈ st.content, c.id = cid) :
    contentMarkedInv (mark_content_as_processed st cid bid) cid bid := by
  obtain ⟨c0, hc0, hc0id⟩ := hex
  simp only [mark_content_as_processed]
  constructor
  · refine ⟨if c0.id = cid then
        { c0 with bindings_state := assocSet c0.bindings_state bid 1 } else c0,
      List.mem_map_of_mem _ hc0, ?_⟩
    rw [if_pos hc0id]
    simpa using hc0id
  · intro c hc hcid
    simp only [List.mem_map] at hc
    obtain ⟨c1, hc1, rfl⟩ := hc
    by_cases h1 : c1.id = cid
    · rw [if_pos h1]
      rw [markerOf_set_self]
    · rw [if_neg h1]
      rw [if_neg h1] at hcid
      exact absurd hcid h1

/-! ## Concrete fixtures (mirroring the repository's own test data) -/

def tPipe : Text := Text.from_text "docs" "hello" [("topic", Jval.jstr "pipe")]

def tBaz : Text := Text.from_text "docs" "world" [("topic", Jval.jstr "baz")]

def tPlain : Text := Text.from_text "docs" "plain" []

def stOne : DbState :=
  { content := [mkContentRow "docs" tPipe]
    events := mkCreateContentEvents "docs" [tPipe] ["e1"]
    repos := []
    work := [] }

def stMixed : DbState :=
  { content := [mkContentRow "docs" tPipe, mkContentRow "docs" tBaz]
    events := mkCreateContentEvents "docs" [tPipe] ["e1"] ++
      mkCreateContentEvents "docs" [tPipe, tBaz] ["e2", "e3"]
    repos := []
    work := [] }

def stTwo : DbState :=
  { content := [mkContentRow "docs" tPipe, mkContentRow "docs" tBaz]
    events := []
    repos := []
    work := [] }

def stMeta : DbState :=
  { content := [mkContentRow "docs" tPlain, mkContentRow "docs" tBaz]
    events := []
    repos := []
    work := [] }

def ebPipe : ExtractorBinding :=
  ExtractorBinding.new "docs" "extractor1" "index1" [.eq "topic" (.jstr "pipe")]

def ebNotPipe : ExtractorBinding :=
  ExtractorBinding.new "docs" "extractor1" "index2" [.neq "topic" (.jstr "pipe")]

def ebBadFilter : ExtractorBinding :=
  ExtractorBinding.new "docs" "extractor1" "index3" [.eq "topic" (.jnum 1)]

/-! ## Claim C1 -/

/-- C1 (counterexample): in a batch mixing a new and an already-ingested
item, `add_content` appends a `ContentCreated` event for EVERY item of the
batch, not only for the newly inserted one. Starting from a store where
`tPipe` is already ingested (exactly one row, one event), ingesting the
batch `[tPipe, tBaz]` succeeds, still keeps exactly one `tPipe` row — but
the store now holds TWO `ContentCreated` events for `tPipe` (the claim
requires the second batch to emit none for it). -/
theorem add_content_mixed_batch_counterexample :
    add_content DbState.empty "docs" [tPipe] ["e1"] = .ok stOne ∧
    (stOne.content.filter fun c => c.id = tPipe.id).length = 1 ∧
    (stOne.events.filter fun e =>
      e.payload.payload = .createContent tPipe.id).length = 1 ∧
    add_content stOne "docs" [tPipe, tBaz] ["e2", "e3"] = .ok stMixed ∧
    (stMixed.content.filter fun c => c.id = tPipe.id).length = 1 ∧
    (stMixed.events.filter fun e =>
      e.payload.payload = .createContent tPipe.id).length = 2 := by
  decide

/-- C1 (amended): `add_content` inserts each content idempotently (an id
conflict is "already ingested", not an error) and appends events in one
transaction, and re-ingesting a previously ingested batch is a complete
no-op that appends no event; however events are appended per batch, not per
inserted item: when nothing at all is inserted no event is appended, and
when at least one item is inserted a `ContentCreated` event is appended for
every item of the batch (including the already-ingested ones). In
particular, ingesting a single fresh (corpus, text) yields exactly one
content row and one event, and a second ingestion of it changes nothing. -/
theorem add_content_idempotent_and_batch_events :
    (∀ st st' : DbState, ∀ repo : String, ∀ texts : List Text, ∀ ids ids2 : List String,
      add_content st repo texts ids = .ok st' →
      add_content st' repo texts ids2 = .ok st') ∧
    (∀ st st' : DbState, ∀ repo : String, ∀ texts : List Text, ∀ ids : List String,
      add_content st repo texts ids = .ok st' →
      ((insertContentBatch st.content (texts.map (mkContentRow repo))).2 = 0 ∧
        st' = st) ∨
      ((insertContentBatch st.content (texts.map (mkContentRow repo))).2 ≠ 0 ∧
        st'.events = st.events ++ mkCreateContentEvents repo texts ids)) ∧
    (∀ st : DbState, ∀ repo : String, ∀ t : Text, ∀ e1 : String,
      (∀ c ∈ st.content, c.id ≠ t.id) →
      (∀ r ∈ st.events, r.id ≠ e1) →
      add_content st repo [t] [e1] = .ok
        { st with
          content := st.content ++ [mkContentRow repo t]
          events := st.events ++ mkCreateContentEvents repo [t] [e1] } ∧
      ((st.content ++ [mkContentRow repo t]).filter fun c => c.id = t.id).length = 1) := by
  refine ⟨?_, ?_, ?_⟩
  · intro st st' repo texts ids ids2 h
    exact add_content_rerun st st' repo texts ids ids2 h
  · intro st st' repo texts ids h
    rcases add_content_ok_elim st st' repo texts ids h with ⟨heq, h0⟩ | ⟨h0, heq, _⟩
    · exact Or.inl ⟨h0, heq⟩
    · subst heq
      exact Or.inr ⟨h0, rfl⟩
  · intro st repo t e1 hfc hfe
    have hc : st.content.any (fun c => c.id = (mkContentRow repo t).id) = false := by
      simp only [List.any_eq_false, decide_eq_true_eq]
      intro c hcm
      simpa [mkContentRow] using hfc c hcm
    have he : st.events.any (fun r => r.id = e1) = false := by
      simp only [List.any_eq_false, decide_eq_true_eq]
      intro r hrm
      exact hfe r hrm
    constructor
    · simp [add_content, mkCreateContentEvents, insertContentBatch, hc,
        insertEventsNoConflict, he]
    · rw [List.filter_append]
      have h0 : st.content.filter (fun c => decide (c.id = t.id)) = [] := by
        rw [List.filter_eq_nil_iff]
        intro c hcm
        simpa using hfc c hcm
      simp [h0, mkContentRow]

/-- C1 (witness for the amended theorem): the three parts instantiated on
the concrete fixtures. -/
theorem add_content_idempotent_and_batch_events_witness :
    add_content stOne "docs" [tPipe] ["e9"] = .ok stOne ∧
    (((insertContentBatch stMixed.content ([tPipe].map (mkContentRow "docs"))).2 = 0 ∧
        stMixed = stMixed) ∨
      ((insertContentBatch stMixed.content ([tPipe].map (mkContentRow "docs"))).2 ≠ 0 ∧
        stMixed.events = stMixed.events ++ mkCreateContentEvents "docs" [tPipe] ["e9"])) ∧
    (add_content stTwo "docs" [tPlain] ["e7"] = .ok
      { stTwo with
        content := stTwo.content ++ [mkContentRow "docs" tPlain]
        events := stTwo.events ++ mkCreateContentEvents "docs" [tPlain] ["e7"] } ∧
      ((stTwo.content ++ [mkContentRow "docs" tPlain]).filter
        fun c => c.id = tPlain.id).length = 1) :=
  ⟨add_content_idempotent_and_batch_events.1 stOne stOne "docs" [tPipe] ["e9"] ["e9"]
      (by decide),
    add_content_idempotent_and_batch_events.2.1 stMixed stMixed "docs" [tPipe] ["e9"]
      (by decide),
    add_content_idempotent_and_batch_events.2.2 stTwo "docs" tPlain "e7"
      (by decide) (by decide)⟩

/-! ## Claim C2 -/

/-- C2: outbox exactly-once-effective delivery. (a) After `add_content`
appends an event, `unprocessed_extraction_events` returns it. (b) After
`mark_extraction_event_as_processed` succeeds for an event id, that id
never appears in any later poll, across any sequence of repository
operations. (c) Marking the same, already-marked event id a second time
returns `Ok` (it only refreshes the timestamp) and leaves the set of
unprocessed events unchanged. -/
theorem outbox_delivery_lifecycle :
    (∀ st st' : DbState, ∀ repo : String, ∀ t : Text, ∀ e1 : String,
      (∀ c ∈ st.content, c.id ≠ t.id) →
      (∀ r ∈ st.events, r.id ≠ e1) →
      add_content st repo [t] [e1] = .ok st' →
      ∃ p ∈ unprocessed_extraction_events st', p.id = e1) ∧
    (∀ st st1 : DbState, ∀ eid : String, ∀ now : Int, ∀ ops : List Op,
      EvConsistent st →
      mark_extraction_event_as_processed st eid now = .ok st1 →
      ∀ p ∈ unprocessed_extraction_events (steps st1 ops), p.id ≠ eid) ∧
    (∀ st st1 : DbState, ∀ eid : String, ∀ now now2 : Int,
      mark_extraction_event_as_processed st eid now = .ok st1 →
      ∃ st2, mark_extraction_event_as_processed st1 eid now2 = .ok st2 ∧
        unprocessed_extraction_events st2 = unprocessed_extraction_events st1) := by
  refine ⟨?_, ?_, ?_⟩
  · intro st st' repo t e1 hfc hfe h
    have hc : st.content.any (fun c => c.id = (mkContentRow repo t).id) = false := by
      simp only [List.any_eq_false, decide_eq_true_eq]
      intro c hcm
      simpa [mkContentRow] using hfc c hcm
    rcases add_content_ok_elim st st' repo [t] [e1] h with ⟨heq, h0⟩ | ⟨h0, heq, _⟩
    · exfalso
      simp [insertContentBatch, hc] at h0
    · subst heq
      refine ⟨{ id := e1, repository_id := repo, payload := .createContent t.id }, ?_, rfl⟩
    
      rw [mem_unprocessed_iff]
      refine ⟨{ id := e1
                payload := { id := e1, repository_id := repo,
                             payload := .createContent t.id }
                processed_at := none }, ?_, rfl, rfl⟩
      simp [mkCreateContentEvents]
  · intro st st1 eid now ops hcons h
    have hdone := mark_event_ok_done st st1 eid now h
    have hcons1 : EvConsistent st1 := by
      have hstep : step st (.markEventProcessed eid now) = st1 := by
        simp only [step, h]
      rw [← hstep]
      exact step_preserves_EvConsistent st _ hcons
    have hdoneF := steps_preserve_eventDone st1 ops eid hdone
    have hconsF := steps_preserve_EvConsistent st1 ops hcons1
    intro p hp
    rw [mem_unprocessed_iff] at hp
    obtain ⟨e, he, hpn, hpe⟩ := hp
    intro hpid
    have heid : e.id = eid := by rw [← hconsF e he, hpe, hpid]
    exact hdoneF.2 e he heid hpn
  · intro st st1 eid now now2 h
    have hdone := mark_event_ok_done st st1 eid now h
    have hex1 : st1.events.any (fun e => e.id = eid) = true := by
      obtain ⟨e0, he0, he0id⟩ := hdone.1
      simp only [List.any_eq_true, decide_eq_true_eq]
      exact ⟨e0, he0, he0id⟩
    refine ⟨{ st1 with
              events := st1.events.map fun e =>
                if e.id = eid then { e with processed_at := some now2 } else e },
      ?_, ?_⟩
    · simp only [mark_extraction_event_as_processed]
      rw [if_pos hex1]
    · simp only [unprocessed_extraction_events]
      exact remark_poll_eq st1.events eid now2 hdone.2

/-- The store of `stOne` after its single outbox event has been marked
processed at time 0. -/
def stOneDone : DbState :=
  { content := [mkContentRow "docs" tPipe]
    events := [{ id := "e1"
                 payload := { id := "e1", repository_id := "docs",
                              payload := .createContent tPipe.id }
                 processed_at := some 0 }]
    repos := []
    work := [] }

/-- C2 (witness): the three parts instantiated on the concrete fixtures:
the freshly appended event `e1` is polled; after marking it, no poll of any
later state returns it; re-marking it succeeds without error and the poll
set is unchanged. -/
theorem outbox_delivery_lifecycle_witness :
    (∃ p ∈ unprocessed_extraction_events stOne, p.id = "e1") ∧
    (∀ p ∈ unprocessed_extraction_events (steps stOneDone []), p.id ≠ "e1") ∧
    (∃ st2, mark_extraction_event_as_processed stOneDone "e1" 5 = .ok st2 ∧
      unprocessed_extraction_events st2 = unprocessed_extraction_events stOneDone) :=
  ⟨outbox_delivery_lifecycle.1 DbState.empty stOne "docs" tPipe "e1"
      (by decide) (by decide) (by decide),
    outbox_delivery_lifecycle.2.1 stOne stOneDone "e1" 0 []
      (by show ∀ e ∈ stOne.events, e.payload.id = e.id; decide) (by decide),
    outbox_delivery_lifecycle.2.2 stOne stOneDone "e1" 0 5 (by decide)⟩

/-! ## Claim C3 -/

def wFix : Work := Work.new "c1" "docs" "index1" "extractor1" Jval.jnull none

def stWork : DbState :=
  { content := [], events := [], repos := [], work := [mkWorkRow wFix] }

/-- C3 (code divergence, evaluated at the failing input): `Work::new`
does start the item in state `Pending`, and the first `insert_work`
inserts exactly one row — but `insert_work` has no conflict clause, so
enqueuing a second `Work` with the same deterministic id returns a
unique-key `DatabaseError` instead of being the claimed no-op. -/
theorem insert_work_duplicate_errors :
    wFix.work_state = WorkState.pending ∧
    insert_work DbState.empty wFix = .ok stWork ∧
    insert_work stWork wFix =
      .err (.databaseError (.uniqueViolation "work_pkey")) ∧
    (stWork.work.filter fun r => r.id = wFix.id).length = 1 := by
  decide

/-! ## Claim C4 -/

def ebEn : ExtractorBinding :=
  ExtractorBinding.new "docs" "extractor1" "index1" [.eq "lang" (.jstr "en")]

def repoDocs : DataRepository :=
  { name := "docs"
    data_connectors := ["connector0"]
    extractor_bindings := [ebEn]
    metadata := [] }

/-- C4 (code divergence, evaluated at the failing input): when either step
of `upsert_repository`'s transaction fails, the transaction itself returns
the typed error — but `upsert_repository` discards it
(`let _ = ... .map_err(..); Ok(())`) and reports success on the unchanged
store, for a failing corpus insert and for a failing event append alike. -/
theorem upsert_repository_swallows_transaction_failure :
    upsert_repository_txn DbState.empty (upsertRow repoDocs)
        (mkBindingAddedEvents "docs" [ebEn] ["b1"])
        (some (.exec "insert failed")) none =
      .error (.databaseError (.exec "insert failed")) ∧
    upsert_repository DbState.empty repoDocs ["b1"]
        (some (.exec "insert failed")) none = .ok DbState.empty ∧
    upsert_repository DbState.empty repoDocs ["b1"]
        none (some (.exec "event append failed")) = .ok DbState.empty := by
  exact ⟨rfl, rfl, rfl⟩

/-! ## Claim C5 -/

/-- C5 (counterexample): with a binding whose filter value is the JSON
number 1 (not a string), `content_with_unapplied_extractor` panics
(`value.as_str().unwrap()` on `None`) — the call crashes instead of
returning a contract-violation error to the caller. -/
theorem nonstring_filter_crash_counterexample :
    content_with_unapplied_extractor DbState.empty "docs" ebBadFilter none =
      .crashed := by
  decide

/-- C5 (amended): when any filter of the binding carries a non-string
value, `content_with_unapplied_extractor` signals the contract violation by
panicking (a crash terminating the call, never a transient failure and
never a typed error returned to the caller). -/
theorem nonstring_filter_panics (st : DbState) (repo : String)
    (eb : ExtractorBinding) (cidq : Option String) (f : ExtractorFilter)
    (hf : f ∈ eb.filters) (hbad : f.value.asStr = none) :
    content_with_unapplied_extractor st repo eb cidq = .crashed := by
  simp [content_with_unapplied_extractor,
    compileFilters_none_of_bad eb.filters f hf hbad]

/-- C5 (witness for the amended theorem): the binding with filter
`Eq{topic, 1}` makes the query over the two-content store crash. -/
theorem nonstring_filter_panics_witness :
    content_with_unapplied_extractor stTwo "docs" ebBadFilter none = .crashed :=
  nonstring_filter_panics stTwo "docs" ebBadFilter none
    (.eq "topic" (.jnum 1)) (by decide) (by decide)

/-! ## Claim C6 -/

/-- C6: `content_with_unapplied_extractor` returns exactly the content of
the corpus whose completion marker for the binding is absent or zero and
that satisfies every filter conjunctively (`Eq` holds iff the metadata
field equals the value, `Neq` iff the field differs), restricted to the
single given id when `content_id` is supplied; and on the concrete store
with metadata `{topic:"pipe"}` / `{topic:"baz"}`, the `Eq{topic,"pipe"}`
binding returns only the first and the `Neq{topic,"pipe"}` binding only the
second. -/
theorem find_unprocessed_characterization :
    (∀ st : DbState, ∀ repo : String, ∀ eb : ExtractorBinding,
      ∀ cidq : Option String, ∀ res : List ContentRow,
      content_with_unapplied_extractor st repo eb cidq = .ok res →
      ∀ c : ContentRow,
        c ∈ res ↔ (c ∈ st.content ∧ c.repository_id = repo ∧
          markerOf c eb.id < 1 ∧ (∀ i, cidq = some i → c.id = i) ∧
          ∀ f ∈ eb.filters, filterHolds c.metadata f)) ∧
    content_with_unapplied_extractor stTwo "docs" ebPipe none =
      .ok [mkContentRow "docs" tPipe] ∧
    content_with_unapplied_extractor stTwo "docs" ebNotPipe none =
      .ok [mkContentRow "docs" tBaz] := by
  refine ⟨?_, by decide, by decide⟩
  intro st repo eb cidq res hres c
  simp only [content_with_unapplied_extractor] at hres
  cases hcs : compileFilters eb.filters with
  | none => rw [hcs] at hres; cases hres
  | some cs =>
    rw [hcs] at hres
    cases hres
    rw [List.mem_filter]
    constructor
    · rintro ⟨hmem, hpred⟩
      simp only [unappliedPred, Bool.and_eq_true, decide_eq_true_eq] at hpred
      obtain ⟨⟨⟨hrepo, hmk⟩, hcid⟩, hflt⟩ := hpred
      refine ⟨hmem, hrepo, hmk, ?_, ?_⟩
      · intro i hi
        subst hi
        simpa using hcid
      · exact (compileFilters_sound eb.filters cs hcs c).mp hflt
    · rintro ⟨hmem, hrepo, hmk, hcid, hflt⟩
      refine ⟨hmem, ?_⟩
      simp only [unappliedPred, Bool.and_eq_true, decide_eq_true_eq]
      refine ⟨⟨⟨hrepo, hmk⟩, ?_⟩, (compileFilters_sound eb.filters cs hcs c).mpr hflt⟩
      cases cidq with
      | none => simp
      | some i => simpa using hcid i rfl

/-- C6 (witness): the characterization applied to the `Eq{topic,"pipe"}`
query on the concrete two-content store, at the returned row. -/
theorem find_unprocessed_characterization_witness :
    mkContentRow "docs" tPipe ∈ [mkContentRow "docs" tPipe] ↔
      (mkContentRow "docs" tPipe ∈ stTwo.content ∧
        (mkContentRow "docs" tPipe).repository_id = "docs" ∧
        markerOf (mkContentRow "docs" tPipe) ebPipe.id < 1 ∧
        (∀ i, (none : Option String) = some i →
          (mkContentRow "docs" tPipe).id = i) ∧
        ∀ f ∈ ebPipe.filters, filterHolds (mkContentRow "docs" tPipe).metadata f) :=
  find_unprocessed_characterization.1 stTwo "docs" ebPipe none
    [mkContentRow "docs" tPipe] (by decide) (mkContentRow "docs" tPipe)

/-! ## Claim C7 -/

/-- C7: completion monotonicity. Once `mark_content_as_processed` has run
for (content, binding) on a store where that content exists, no later
sequence of repository operations can make `content_with_unapplied_extractor`
for that binding return that content again — the per-binding marker moves
0→1 and no operation resets it. -/
theorem completion_marker_monotonic (st : DbState) (cid bid : String)
    (ops : List Op) (repo : String) (eb : ExtractorBinding)
    (cidq : Option String) (res : List ContentRow)
    (hex : ∃ c ∈ st.content, c.id = cid)
    (hbid : eb.id = bid)
    (hres : content_with_unapplied_extractor
      (steps (mark_content_as_processed st cid bid) ops) repo eb cidq = .ok res) :
    ∀ c ∈ res, c.id ≠ cid := by
  subst hbid
  have hinv := mark_content_ok_marked st cid eb.id hex
  have hinvF := steps_preserve_contentMarked _ ops cid eb.id hinv
  exact unapplied_excludes_marked _ repo eb cidq res cid hinvF hres

/-- An unfiltered binding, used to witness the monotonicity claim. -/
def ebAll : ExtractorBinding :=
  ExtractorBinding.new "docs" "extractor1" "index4" []

/-- C7 (witness): after marking `tPipe` processed for the unfiltered
binding on the two-content store, the query returns only `tBaz`, whose id
is not `tPipe`'s. -/
theorem completion_marker_monotonic_witness :
    (mkContentRow "docs" tBaz).id ≠ tPipe.id :=
  completion_marker_monotonic stTwo tPipe.id ebAll.id [] "docs" ebAll none
    [mkContentRow "docs" tBaz] (by decide) rfl (by decide)
    (mkContentRow "docs" tBaz) (by decide)

/-! ## Claim C8 -/

/-- C8: `mark_extraction_event_as_processed` with an id matching no outbox
row crashes (the code unwraps the `None` lookup) instead of returning a
typed error; when a matching row exists the call returns `Ok` — row
existence is the unstated precondition for not panicking. -/
theorem mark_event_requires_existing_row (st : DbState) (eid : String) (now : Int) :
    ((∀ e ∈ st.events, e.id ≠ eid) →
      mark_extraction_event_as_processed st eid now = .crashed) ∧
    ((∃ e ∈ st.events, e.id = eid) →
      ∃ st', mark_extraction_event_as_processed st eid now = .ok st') := by
  constructor
  · intro hno
    have hany : st.events.any (fun e => e.id = eid) = false := by
      simp only [List.any_eq_false, decide_eq_true_eq]
      exact hno
    simp [mark_extraction_event_as_processed, hany]
  · rintro ⟨e, he, heid⟩
    have hany : st.events.any (fun e => e.id = eid) = true := by
      simp only [List.any_eq_true, decide_eq_true_eq]
      exact ⟨e, he, heid⟩
    refine ⟨{ st with
              events := st.events.map fun e =>
                if e.id = eid then { e with processed_at := some now } else e }, ?_⟩
    simp only [mark_extraction_event_as_processed]
    rw [if_pos hany]

/-- C8 (witness): on the empty store any id crashes; on the store holding
event `e1` the call succeeds. -/
theorem mark_event_requires_existing_row_witness :
    mark_extraction_event_as_processed DbState.empty "missing" 0 = .crashed ∧
    ∃ st', mark_extraction_event_as_processed stOne "e1" 0 = .ok st' :=
  ⟨(mark_event_requires_existing_row DbState.empty "missing" 0).1 (by decide),
   (mark_event_requires_existing_row stOne "e1" 0).2 (by decide)⟩

/-! ## Claim C9 -/

/-- C9: under a `Neq{field, value}` filter, content whose metadata lacks
the field entirely is excluded from `content_with_unapplied_extractor`:
the compiled `metadata->>field != value` clause is SQL NULL for an absent
field and therefore not satisfied. -/
theorem neq_filter_excludes_missing_field (st : DbState) (repo : String)
    (eb : ExtractorBinding) (cidq : Option String) (res : List ContentRow)
    (field : String) (value : Jval) (c : ContentRow)
    (hres : content_with_unapplied_extractor st repo eb cidq = .ok res)
    (hf : ExtractorFilter.neq field value ∈ eb.filters)
    (hmiss : c.metadata.find? (fun kv => kv.1 = field) = none) :
    c ∉ res := by
  intro hc
  simp only [content_with_unapplied_extractor] at hres
  cases hcs : compileFilters eb.filters with
  | none => rw [hcs] at hres; cases hres
  | some cs =>
    rw [hcs] at hres
    cases hres
    rw [List.mem_filter] at hc
    obtain ⟨hmem, hpred⟩ := hc
    simp only [unappliedPred, Bool.and_eq_true] at hpred
    have hall := hpred.2
    obtain ⟨v, hv, hcl⟩ := compileFilters_mem_neq eb.filters cs hcs field value hf
    rw [List.all_eq_true] at hall
    have hsat := hall _ hcl
    have hmx : metaText c.metadata field = none := by
      simp [metaText, hmiss]
    simp only [satClause] at hsat
    rw [hmx] at hsat
    cases hsat

/-- C9 (witness): on a store holding a content without the `topic` field
and one with `topic:"baz"`, the `Neq{topic,"pipe"}` query returns only the
latter; the field-less content is excluded. -/
theorem neq_filter_excludes_missing_field_witness :
    mkContentRow "docs" tPlain ∉ [mkContentRow "docs" tBaz] :=
  neq_filter_excludes_missing_field stMeta "docs" ebNotPipe none
    [mkContentRow "docs" tBaz] "topic" (Jval.jstr "pipe")
    (mkContentRow "docs" tPlain) (by decide) (by decide) (by decide)

/-! ## Claim C10 -/

theorem upsert_repos_result (st st' : DbState) (repo : DataRepository)
    (ids : List String)
    (hok : upsert_repository st repo ids none none = .ok st')
    (hev : insertEventsNoConflict st.events
        (mkBindingAddedEvents repo.name repo.extractor_bindings ids) =
      .ok (st.events ++ mkBindingAddedEvents repo.name repo.extractor_bindings ids)) :
    st'.repos = dataRepoUpsert st.repos (upsertRow repo) := by
  simp only [upsert_repository, upsert_repository_txn] at hok
  by_cases hl : (mkBindingAddedEvents repo.name repo.extractor_bindings ids).length > 0
  · rw [if_pos hl] at hok
    cases hins : insertEventsNoConflict st.events
        (mkBindingAddedEvents repo.name repo.extractor_bindings ids) with
    | error e =>
      exfalso
      rw [hins] at hev
      cases hev
    | ok etbl =>
      rw [hins] at hok
      cases hok
      rfl
  · rw [if_neg hl] at hok
    cases hok
    rfl

/-- C10: re-upserting an existing corpus updates only the
`extractor_bindings` and `metadata` columns of the stored row: its
`data_connectors` column keeps the prior value (the newly supplied
connectors are not applied), and its `name` is unchanged. -/
theorem upsert_conflict_keeps_data_connectors (st st' : DbState)
    (repo : DataRepository) (ids : List String)
    (hok : upsert_repository st repo ids none none = .ok st')
    (hev : insertEventsNoConflict st.events
        (mkBindingAddedEvents repo.name repo.extractor_bindings ids) =
      .ok (st.events ++ mkBindingAddedEvents repo.name repo.extractor_bindings ids))
    (hex : ∃ r ∈ st.repos, r.name = repo.name) :
    st'.repos = st.repos.map (fun r =>
      if r.name = repo.name then
        { r with
          extractor_bindings := bindingsMap repo.extractor_bindings
          metadata := repo.metadata }
      else r) ∧
    ∀ r ∈ st'.repos, r.name = repo.name →
      ∃ r0 ∈ st.repos, r0.name = repo.name ∧ r.name = r0.name ∧
        r.data_connectors = r0.data_connectors ∧
        r.extractor_bindings = bindingsMap repo.extractor_bindings ∧
        r.metadata = repo.metadata := by
  have hrepos := upsert_repos_result st st' repo ids hok hev
  have hany : st.repos.any (fun r => r.name = (upsertRow repo).name) = true := by
    obtain ⟨r0, hr0, hr0n⟩ := hex
    simp only [List.any_eq_true, decide_eq_true_eq]
    exact ⟨r0, hr0, hr0n⟩
  rw [dataRepoUpsert, if_pos hany] at hrepos
  simp only [upsertRow] at hrepos
  constructor
  · rw [hrepos]
  · intro r hr hrn
    rw [hrepos] at hr
    simp only [List.mem_map] at hr
    obtain ⟨r0, hr0, hreq⟩ := hr
    by_cases h1 : r0.name = repo.name
    · rw [if_pos h1] at hreq
      subst hreq
      exact ⟨r0, hr0, h1, rfl, rfl, rfl, rfl⟩
    · rw [if_neg h1] at hreq
      subst hreq
      exact absurd hrn h1

/-- A store already holding a `docs` corpus row with connector
`connector0`, used to witness the conflict-path frame effect. -/
def stRepoOld : DbState :=
  { content := []
    events := []
    repos := [{ name := "docs"
                extractor_bindings := []
                metadata := []
                data_connectors := ["connector0"] }]
    work := [] }

/-- A re-declaration of the `docs` corpus with different connectors,
bindings and metadata. -/
def repoNew : DataRepository :=
  { name := "docs"
    data_connectors := ["connectorNew"]
    extractor_bindings := [ebEn]
    metadata := [("owner", Jval.jstr "ops")] }

/-- The store after re-upserting `repoNew` over `stRepoOld`. -/
def stRepoUpd : DbState :=
  { content := []
    events := mkBindingAddedEvents "docs" [ebEn] ["b1"]
    repos := [{ name := "docs"
                extractor_bindings := bindingsMap [ebEn]
                metadata := [("owner", Jval.jstr "ops")]
                data_connectors := ["connector0"] }]
    work := [] }

/-- C10 (witness): on the concrete conflicting upsert, the stored row keeps
`connector0` (not `connectorNew`) and its name, while bindings and metadata
are replaced. -/
theorem upsert_conflict_keeps_data_connectors_witness :
    stRepoUpd.repos = stRepoOld.repos.map (fun r =>
      if r.name = repoNew.name then
        { r with
          extractor_bindings := bindingsMap repoNew.extractor_bindings
          metadata := repoNew.metadata }
      else r) ∧
    ∀ r ∈ stRepoUpd.repos, r.name = repoNew.name →
      ∃ r0 ∈ stRepoOld.repos, r0.name = repoNew.name ∧ r.name = r0.name ∧
        r.data_connectors = r0.data_connectors ∧
        r.extractor_bindings = bindingsMap repoNew.extractor_bindings ∧
        r.metadata = repoNew.metadata :=
  upsert_conflict_keeps_data_connectors stRepoOld stRepoUpd repoNew ["b1"]
    (by decide) (by rfl) (by decide)
